import Mathlib

/-!
Verification development for `SpamDetector.py`: a multinomial naive-Bayes
spam classifier with Laplace smoothing, a Pearson-correlation feature
filter, and a five-fold cross-validation driver.

The embedding is shallow: pandas DataFrames become `Frame` (rational
values, exact arithmetic) for the trainer, and `RFrame` (real values) for
the predictor, evaluator and correlation filter, where logarithms and
square roots force real arithmetic.  Python's slicing loop for the folds
is embedded as a structural recursion mirroring the loop body.
-/

/-- Embedding of the fold-slicing loop (source lines 138-150): starting at
index `s` it repeatedly takes the slice `l[s : min (s + fs) (len l)]` and
advances `s` to the slice's end, `k` times. -/
def foldsLoop (l : List α) (fs : Nat) : Nat → Nat → List (List α)
  | 0, _ => []
  | k + 1, s =>
    let e := min (s + fs) l.length
    ((l.drop s).take (e - s)) :: foldsLoop l fs k e

/-- Embedding of the cross-validation fold construction: `fold_size` is the
floor division `len(training_data) // 5` and the loop runs five times from
index 0 (source lines 136-150). -/
def folds (l : List α) : List (List α) := foldsLoop l (l.length / 5) 5 0

lemma foldsLoop_spec (l : List α) (fs : Nat) :
    ∀ (k s : Nat), s + k * fs ≤ l.length →
      (foldsLoop l fs k s).map List.length = List.replicate k fs ∧
      (foldsLoop l fs k s).flatten = (l.drop s).take (k * fs) := by
  intro k
  induction k with
  | zero => intro s _; simp [foldsLoop]
  | succ k ih =>
    intro s h
    have hmul : (k + 1) * fs = k * fs + fs := Nat.succ_mul k fs
    have hsfs : s + fs ≤ l.length := by omega
    have hrec := ih (s + fs) (by omega)
    have hmin : min (s + fs) l.length = s + fs := Nat.min_eq_left hsfs
    have hsub : s + fs - s = fs := by omega
    constructor
    · simp only [foldsLoop, hmin, List.map_cons, hrec.1, hsub]
      have hlen : ((l.drop s).take fs).length = fs := by
        rw [List.length_take, List.length_drop]
        omega
      rw [hlen, List.replicate_succ]
    · simp only [foldsLoop, hmin, List.flatten_cons, hrec.2, hsub]
      have hdd : l.drop (s + fs) = (l.drop s).drop fs := by
        rw [List.drop_drop]
      rw [hdd, ← List.take_add]
      congr 1
      omega

/-- Claim C1 (amended): the driver splits the training set into five
contiguous folds, each of size `⌊n / 5⌋` exactly; the trailing `n mod 5`
rows are dropped (they land in no fold), so the concatenation of the folds
reproduces only the first `5 * ⌊n / 5⌋` rows of the training set, in
order. -/
theorem folds_sizes_and_join (l : List α) :
    (folds l).map List.length = List.replicate 5 (l.length / 5) ∧
    (folds l).flatten = l.take (5 * (l.length / 5)) := by
  have hle : 0 + 5 * (l.length / 5) ≤ l.length := by
    have := Nat.div_mul_le_self l.length 5
    omega
  have h := foldsLoop_spec l (l.length / 5) 5 0 hle
  simpa [folds] using h

/-- Claim C1 counterexample: for a training set of 23 rows the fold sizes
are `[4, 4, 4, 4, 4]`, not `[4, 4, 4, 4, 7]`; the last fold does not
absorb the remainder, the final three rows are dropped, and the
concatenation of the folds does not reproduce the training set. -/
theorem folds_claim_counterexample :
    (folds (List.range 23)).map List.length = [4, 4, 4, 4, 4] ∧
    (folds (List.range 23)).map List.length ≠ [4, 4, 4, 4, 7] ∧
    (folds (List.range 23)).flatten ≠ List.range 23 := by
  refine ⟨by decide, by decide, by decide⟩

/-- A pandas DataFrame as loaded from `spambase.csv`: an ordered list of
column names (the last one is the binary label column `spam`) and an
ordered list of rows, each row a list of cell values aligned with the
columns.  The trainer only needs exact arithmetic, so cells are rational. -/
structure Frame where
  columns : List String
  rows : List (List ℚ)
deriving DecidableEq

/-- Position of the label column: `train_data['spam']` selects by name. -/
def spamIdx (f : Frame) : Nat := f.columns.findIdx (fun c => c == "spam")

/-- The label value of a row, read at the `spam` column's position. -/
def labelOf (f : Frame) (r : List ℚ) : ℚ := r.getD (spamIdx f) 0

/-- The rows selected by `train_data[train_data['spam'] == 1]`. -/
def spamRows (f : Frame) : List (List ℚ) :=
  f.rows.filter (fun r => labelOf f r == 1)

/-- The rows selected by `train_data[train_data['spam'] == 0]`. -/
def nonSpamRows (f : Frame) : List (List ℚ) :=
  f.rows.filter (fun r => labelOf f r == 0)

/-- `features = train_data.columns[:-1]`: every column except the last. -/
def features (f : Frame) : List String := f.columns.dropLast

/-- Number of feature columns, `len(features)`. -/
def nFeatures (f : Frame) : Nat := (features f).length

/-- Column sum over a set of rows: `rows[col].sum()` at column position
`j`. -/
def colSumQ (rows : List (List ℚ)) (j : Nat) : ℚ :=
  (rows.map (fun r => r.getD j 0)).sum

/-- `spam_word_sum[f]`: the sum of feature column `j` over the spam rows. -/
def spamWordSum (f : Frame) (j : Nat) : ℚ := colSumQ (spamRows f) j

/-- `non_spam_word_sum[f]`. -/
def nonSpamWordSum (f : Frame) (j : Nat) : ℚ := colSumQ (nonSpamRows f) j

/-- `total_spam_word_sum`: the sum of all feature-column sums over spam. -/
def totalSpamWordSum (f : Frame) : ℚ :=
  ((List.range (nFeatures f)).map (spamWordSum f)).sum

/-- `total_non_spam_word_sum`. -/
def totalNonSpamWordSum (f : Frame) : ℚ :=
  ((List.range (nFeatures f)).map (nonSpamWordSum f)).sum

/-- Laplace-smoothed conditional probability of feature `j` given spam
(source line 34). -/
def wordSpamProb (f : Frame) (a : ℚ) (j : Nat) : ℚ :=
  (spamWordSum f j + a) / (totalSpamWordSum f + a * nFeatures f)

/-- Laplace-smoothed conditional probability of feature `j` given
non-spam (source line 35). -/
def wordNonSpamProb (f : Frame) (a : ℚ) (j : Nat) : ℚ :=
  (nonSpamWordSum f j + a) / (totalNonSpamWordSum f + a * nFeatures f)

/-- The tuple returned by `train`: two priors and the two per-feature
conditional-probability series (a pandas Series is a list of
name-value pairs). -/
structure QModel where
  prior_spam : ℚ
  prior_non_spam : ℚ
  word_given_spam : List (String × ℚ)
  word_given_non_spam : List (String × ℚ)
deriving DecidableEq

/-- The runtime errors the program can actually raise: Python's integer
division `len(spam) / len(train_data)` raises `ZeroDivisionError` when the
fold has no rows, and sklearn's `roc_auc_score` raises `ValueError` when
the test labels hold fewer than two distinct values.  The source defines
no error classes of its own. -/
inductive PyErr where
  | zeroDivision
  | valueError
deriving DecidableEq

instance : DecidableEq (Except PyErr QModel) := fun x y =>
  match x, y with
  | .ok a, .ok b =>
    if h : a = b then .isTrue (congrArg _ h)
    else .isFalse (fun he => h (Except.ok.inj he))
  | .error a, .error b =>
    if h : a = b then .isTrue (congrArg _ h)
    else .isFalse (fun he => h (Except.error.inj he))
  | .ok _, .error _ => .isFalse (fun he => Except.noConfusion he)
  | .error _, .ok _ => .isFalse (fun he => Except.noConfusion he)

/-- Embedding of `train` (source lines 13-38).  The prior computation
divides by `len(train_data)`, which raises `ZeroDivisionError` on an empty
fold; every other step is total. -/
def train (f : Frame) (a : ℚ) : Except PyErr QModel :=
  if f.rows.length = 0 then .error .zeroDivision
  else .ok
    { prior_spam := ((spamRows f).length : ℚ) / (f.rows.length : ℚ)
      prior_non_spam := ((nonSpamRows f).length : ℚ) / (f.rows.length : ℚ)
      word_given_spam :=
        (List.range (nFeatures f)).map
          (fun j => ((features f).getD j "", wordSpamProb f a j))
      word_given_non_spam :=
        (List.range (nFeatures f)).map
          (fun j => ((features f).getD j "", wordNonSpamProb f a j)) }

/-- A fold whose rows are all spam (only one class represented). -/
def singleClassFold : Frame :=
  { columns := ["a", "spam"], rows := [[1, 1], [2, 1]] }

/-- A fold with no rows at all. -/
def emptyFold : Frame :=
  { columns := ["a", "spam"], rows := [] }

/-- Claim C6 counterexample: the code defines neither `EmptyFoldError` nor
`InvalidFoldError`.  On a fold containing only the spam class, `train`
succeeds outright (returning `prior_non_spam = 0`) instead of skipping or
raising, and on an empty fold it raises a bare `ZeroDivisionError` that
nothing catches. -/
theorem train_no_fold_guard_counterexample :
    train singleClassFold 1 =
      .ok { prior_spam := 1, prior_non_spam := 0,
            word_given_spam := [("a", 1)],
            word_given_non_spam := [("a", 1)] } ∧
    train emptyFold 1 = .error .zeroDivision := by
  constructor
  · have hsr : spamRows singleClassFold = [[1, 1], [2, 1]] := rfl
    have hnr : nonSpamRows singleClassFold = ([] : List (List ℚ)) := rfl
    have hnf : nFeatures singleClassFold = 1 := rfl
    have hs1 : spamWordSum singleClassFold 0 = 3 := by
      rw [spamWordSum, hsr]
      norm_num [colSumQ]
    have hn1 : nonSpamWordSum singleClassFold 0 = 0 := by
      rw [nonSpamWordSum, hnr]
      norm_num [colSumQ]
    have hr1 : List.range 1 = [0] := rfl
    have hs2 : totalSpamWordSum singleClassFold = 3 := by
      rw [totalSpamWordSum, hnf, hr1]
      norm_num [hs1]
    have hn2 : totalNonSpamWordSum singleClassFold = 0 := by
      rw [totalNonSpamWordSum, hnf, hr1]
      norm_num [hn1]
    rw [train, if_neg (by norm_num [singleClassFold])]
    congr 1
    rw [QModel.mk.injEq]
    refine ⟨?_, ?_, ?_, ?_⟩
    · rw [hsr]
      norm_num [singleClassFold]
    · rw [hnr]
      norm_num [singleClassFold]
    · rw [hnf, hr1, List.map_cons, List.map_nil, List.cons.injEq,
        Prod.mk.injEq]
      refine ⟨⟨rfl, ?_⟩, rfl⟩
      rw [wordSpamProb, hs1, hs2, hnf]
      norm_num
    · rw [hnf, hr1, List.map_cons, List.map_nil, List.cons.injEq,
        Prod.mk.injEq]
      refine ⟨⟨rfl, ?_⟩, rfl⟩
      rw [wordNonSpamProb, hn1, hn2, hnf]
      norm_num
  · rfl

/-- Claim C6 (amended): `train` raises an error only on an empty fold, and
that error is an unhandled `ZeroDivisionError` from the prior computation
(which, uncaught in the driver loop, aborts the whole run rather than only
that fold); a fold containing a single class is not detected at all —
training succeeds and returns a zero prior for the missing class. -/
theorem train_error_iff_empty (f : Frame) (a : ℚ) :
    (f.rows = [] → train f a = .error .zeroDivision) ∧
    (f.rows ≠ [] → ∃ m, train f a = .ok m) := by
  constructor
  · intro h
    simp [train, h]
  · intro h
    have hne : ¬ f.rows.length = 0 := by
      have := List.length_pos.mpr h
      omega
    unfold train
    rw [if_neg hne]
    exact ⟨_, rfl⟩

/-- Witness for Claim C6: both branches of the amended statement at
concrete folds. -/
theorem train_error_iff_empty_witness :
    train emptyFold 1 = .error .zeroDivision ∧
    ∃ m, train singleClassFold 1 = .ok m := by
  exact ⟨(train_error_iff_empty emptyFold 1).1 rfl,
         (train_error_iff_empty singleClassFold 1).2 (by simp [singleClassFold])⟩

lemma getD_map_range (n j : Nat) (φ : Nat → β) (d : β) (h : j < n) :
    ((List.range n).map φ).getD j d = φ j := by
  have h1 : j < ((List.range n).map φ).length := by simp [h]
  rw [List.getD_eq_getElem _ _ h1]
  simp

/-- Claim C2: on a non-empty fold whose labels are all 0 or 1, `train`
succeeds and returns the class-frequency priors and, for every feature
column `j`, the Laplace-smoothed conditional probabilities
`(sum of column j over the class rows + a) / (sum of all feature columns
over the class rows + a * number of features)`. -/
theorem train_formula (f : Frame) (a : ℚ)
    (hne : f.rows ≠ [])
    (hlab : ∀ r ∈ f.rows, labelOf f r = 0 ∨ labelOf f r = 1)
    (ha : 0 < a) :
    ∃ m, train f a = .ok m ∧
      m.prior_spam =
        ((f.rows.filter (fun r => labelOf f r == 1)).length : ℚ) /
          (f.rows.length : ℚ) ∧
      m.prior_non_spam =
        ((f.rows.filter (fun r => labelOf f r == 0)).length : ℚ) /
          (f.rows.length : ℚ) ∧
      m.word_given_spam.length = nFeatures f ∧
      m.word_given_non_spam.length = nFeatures f ∧
      ∀ j, j < nFeatures f →
        m.word_given_spam.getD j ("", 0) =
          ((features f).getD j "",
            (((spamRows f).map (fun r => r.getD j 0)).sum + a) /
              (((List.range (nFeatures f)).map
                  (fun i => ((spamRows f).map (fun r => r.getD i 0)).sum)).sum +
                a * nFeatures f)) ∧
        m.word_given_non_spam.getD j ("", 0) =
          ((features f).getD j "",
            (((nonSpamRows f).map (fun r => r.getD j 0)).sum + a) /
              (((List.range (nFeatures f)).map
                  (fun i => ((nonSpamRows f).map (fun r => r.getD i 0)).sum)).sum +
                a * nFeatures f)) := by
  have hne0 : ¬ f.rows.length = 0 := by
    have := List.length_pos.mpr hne
    omega
  have htr : train f a = .ok
      { prior_spam := ((spamRows f).length : ℚ) / (f.rows.length : ℚ)
        prior_non_spam := ((nonSpamRows f).length : ℚ) / (f.rows.length : ℚ)
        word_given_spam :=
          (List.range (nFeatures f)).map
            (fun j => ((features f).getD j "", wordSpamProb f a j))
        word_given_non_spam :=
          (List.range (nFeatures f)).map
            (fun j => ((features f).getD j "", wordNonSpamProb f a j)) } := by
    unfold train
    rw [if_neg hne0]
  refine ⟨_, htr, rfl, rfl, by simp, by simp, ?_⟩
  intro j hj
  constructor
  · rw [getD_map_range _ _ _ _ hj]
    rfl
  · rw [getD_map_range _ _ _ _ hj]
    rfl

/-- Witness for Claim C2 at a concrete two-row fold with one spam and one
non-spam row and smoothing constant 1. -/
theorem train_formula_witness :
    ∃ m, train ⟨["a", "spam"], [[1, 1], [2, 0]]⟩ 1 = .ok m ∧
      m.prior_spam =
        (((⟨["a", "spam"], [[1, 1], [2, 0]]⟩ : Frame).rows.filter
            (fun r => labelOf ⟨["a", "spam"], [[1, 1], [2, 0]]⟩ r == 1)).length : ℚ) /
          (((⟨["a", "spam"], [[1, 1], [2, 0]]⟩ : Frame).rows.length : ℚ)) ∧
      m.prior_non_spam =
        (((⟨["a", "spam"], [[1, 1], [2, 0]]⟩ : Frame).rows.filter
            (fun r => labelOf ⟨["a", "spam"], [[1, 1], [2, 0]]⟩ r == 0)).length : ℚ) /
          (((⟨["a", "spam"], [[1, 1], [2, 0]]⟩ : Frame).rows.length : ℚ)) ∧
      m.word_given_spam.length = nFeatures ⟨["a", "spam"], [[1, 1], [2, 0]]⟩ ∧
      m.word_given_non_spam.length = nFeatures ⟨["a", "spam"], [[1, 1], [2, 0]]⟩ ∧
      ∀ j, j < nFeatures ⟨["a", "spam"], [[1, 1], [2, 0]]⟩ →
        m.word_given_spam.getD j ("", 0) =
          ((features ⟨["a", "spam"], [[1, 1], [2, 0]]⟩).getD j "",
            (((spamRows ⟨["a", "spam"], [[1, 1], [2, 0]]⟩).map (fun r => r.getD j 0)).sum + 1) /
              (((List.range (nFeatures ⟨["a", "spam"], [[1, 1], [2, 0]]⟩)).map
                  (fun i => ((spamRows ⟨["a", "spam"], [[1, 1], [2, 0]]⟩).map
                    (fun r => r.getD i 0)).sum)).sum +
                1 * nFeatures ⟨["a", "spam"], [[1, 1], [2, 0]]⟩)) ∧
        m.word_given_non_spam.getD j ("", 0) =
          ((features ⟨["a", "spam"], [[1, 1], [2, 0]]⟩).getD j "",
            (((nonSpamRows ⟨["a", "spam"], [[1, 1], [2, 0]]⟩).map (fun r => r.getD j 0)).sum + 1) /
              (((List.range (nFeatures ⟨["a", "spam"], [[1, 1], [2, 0]]⟩)).map
                  (fun i => ((nonSpamRows ⟨["a", "spam"], [[1, 1], [2, 0]]⟩).map
                    (fun r => r.getD i 0)).sum)).sum +
                1 * nFeatures ⟨["a", "spam"], [[1, 1], [2, 0]]⟩)) := by
  exact train_formula ⟨["a", "spam"], [[1, 1], [2, 0]]⟩ 1 (by simp)
    (by decide) (by norm_num)

lemma getD_nonneg (r : List ℚ) (j : Nat) (h : ∀ x ∈ r, 0 ≤ x) :
    0 ≤ r.getD j 0 := by
  by_cases hj : j < r.length
  · rw [List.getD_eq_getElem _ _ hj]
    exact h _ (List.getElem_mem hj)
  · rw [List.getD_eq_default _ _ (by omega)]

lemma colSumQ_nonneg (f : Frame) (rows : List (List ℚ)) (j : Nat)
    (hsub : ∀ r ∈ rows, r ∈ f.rows)
    (hnn : ∀ r ∈ f.rows, ∀ x ∈ r, 0 ≤ x) :
    0 ≤ colSumQ rows j := by
  apply List.sum_nonneg
  intro x hx
  obtain ⟨r, hr, rfl⟩ := List.mem_map.mp hx
  exact getD_nonneg r j (hnn r (hsub r hr))

lemma smoothed_prob_bounds (s S m a : ℚ)
    (hs : 0 ≤ s) (hsS : s ≤ S) (hS : 0 ≤ S) (hm : 1 ≤ m) (ha : 0 < a) :
    0 < (s + a) / (S + a * m) ∧ (s + a) / (S + a * m) ≤ 1 := by
  have hden : 0 < S + a * m := by nlinarith
  constructor
  · apply div_pos (by linarith) hden
  · rw [div_le_one hden]
    nlinarith

/-- Claim C7: on a non-empty fold with both classes represented, binary
labels, non-negative feature values and smoothing constant `a > 0`, the
trained model's priors sum to exactly 1 and every conditional probability
in both per-feature series lies in the half-open interval (0, 1]. -/
theorem train_model_invariants (f : Frame) (a : ℚ)
    (hne : f.rows ≠ [])
    (hlab : ∀ r ∈ f.rows, labelOf f r = 0 ∨ labelOf f r = 1)
    (hboth : spamRows f ≠ [] ∧ nonSpamRows f ≠ [])
    (hnn : ∀ r ∈ f.rows, ∀ x ∈ r, 0 ≤ x)
    (ha : 0 < a) :
    ∃ m, train f a = .ok m ∧
      m.prior_spam + m.prior_non_spam = 1 ∧
      (∀ p ∈ m.word_given_spam, 0 < p.2 ∧ p.2 ≤ 1) ∧
      (∀ p ∈ m.word_given_non_spam, 0 < p.2 ∧ p.2 ≤ 1) := by
  have hne0 : ¬ f.rows.length = 0 := by
    have := List.length_pos.mpr hne
    omega
  have htr : train f a = .ok
      { prior_spam := ((spamRows f).length : ℚ) / (f.rows.length : ℚ)
        prior_non_spam := ((nonSpamRows f).length : ℚ) / (f.rows.length : ℚ)
        word_given_spam :=
          (List.range (nFeatures f)).map
            (fun j => ((features f).getD j "", wordSpamProb f a j))
        word_given_non_spam :=
          (List.range (nFeatures f)).map
            (fun j => ((features f).getD j "", wordNonSpamProb f a j)) } := by
    unfold train
    rw [if_neg hne0]
  have hpart : (spamRows f).length + (nonSpamRows f).length = f.rows.length := by
    unfold spamRows nonSpamRows
    have : ∀ (l : List (List ℚ)),
        (∀ r ∈ l, labelOf f r = 0 ∨ labelOf f r = 1) →
        (l.filter (fun r => labelOf f r == 1)).length +
          (l.filter (fun r => labelOf f r == 0)).length = l.length := by
      intro l hl
      induction l with
      | nil => simp
      | cons r t ih =>
        have ht : ∀ x ∈ t, labelOf f x = 0 ∨ labelOf f x = 1 :=
          fun x hx => hl x (List.mem_cons_of_mem r hx)
        have hrec := ih ht
        rcases hl r (List.mem_cons_self r t) with h0 | h1
        · rw [List.filter_cons_of_neg (by simp [h0]),
            List.filter_cons_of_pos (by simp [h0])]
          simp only [List.length_cons]
          omega
        · rw [List.filter_cons_of_pos (by simp [h1]),
            List.filter_cons_of_neg (by simp [h1])]
          simp only [List.length_cons]
          omega
    exact this f.rows hlab
  have hcast : ((f.rows.length : ℚ)) ≠ 0 := by
    exact_mod_cast hne0
  have hsub_spam : ∀ r ∈ spamRows f, r ∈ f.rows :=
    fun r hr => List.mem_of_mem_filter hr
  have hsub_non : ∀ r ∈ nonSpamRows f, r ∈ f.rows :=
    fun r hr => List.mem_of_mem_filter hr
  refine ⟨_, htr, ?_, ?_, ?_⟩
  · show ((spamRows f).length : ℚ) / (f.rows.length : ℚ) +
        ((nonSpamRows f).length : ℚ) / (f.rows.length : ℚ) = 1
    rw [div_add_div_same]
    have : ((spamRows f).length : ℚ) + ((nonSpamRows f).length : ℚ) =
        (f.rows.length : ℚ) := by
      exact_mod_cast congrArg (fun n : Nat => (n : ℚ)) hpart
    rw [this]
    exact div_self hcast
  · intro p hp
    obtain ⟨j, hjm, rfl⟩ := List.mem_map.mp hp
    have hj : j < nFeatures f := List.mem_range.mp hjm
    show 0 < wordSpamProb f a j ∧ wordSpamProb f a j ≤ 1
    unfold wordSpamProb
    apply smoothed_prob_bounds
    · exact colSumQ_nonneg f (spamRows f) j hsub_spam hnn
    · apply List.single_le_sum
      · intro x hx
        obtain ⟨i, _, rfl⟩ := List.mem_map.mp hx
        exact colSumQ_nonneg f (spamRows f) i hsub_spam hnn
      · exact List.mem_map_of_mem _ hjm
    · apply List.sum_nonneg
      intro x hx
      obtain ⟨i, _, rfl⟩ := List.mem_map.mp hx
      exact colSumQ_nonneg f (spamRows f) i hsub_spam hnn
    · exact_mod_cast Nat.one_le_iff_ne_zero.mpr (by omega)
    · exact ha
  · intro p hp
    obtain ⟨j, hjm, rfl⟩ := List.mem_map.mp hp
    have hj : j < nFeatures f := List.mem_range.mp hjm
    show 0 < wordNonSpamProb f a j ∧ wordNonSpamProb f a j ≤ 1
    unfold wordNonSpamProb
    apply smoothed_prob_bounds
    · exact colSumQ_nonneg f (nonSpamRows f) j hsub_non hnn
    · apply List.single_le_sum
      · intro x hx
        obtain ⟨i, _, rfl⟩ := List.mem_map.mp hx
        exact colSumQ_nonneg f (nonSpamRows f) i hsub_non hnn
      · exact List.mem_map_of_mem _ hjm
    · apply List.sum_nonneg
      intro x hx
      obtain ⟨i, _, rfl⟩ := List.mem_map.mp hx
      exact colSumQ_nonneg f (nonSpamRows f) i hsub_non hnn
    · exact_mod_cast Nat.one_le_iff_ne_zero.mpr (by omega)
    · exact ha

/-- Witness for Claim C7 at a concrete two-row fold containing one spam
and one non-spam row, all feature values non-negative, smoothing 1. -/
theorem train_model_invariants_witness :
    ∃ m, train ⟨["a", "spam"], [[1, 1], [2, 0]]⟩ 1 = .ok m ∧
      m.prior_spam + m.prior_non_spam = 1 ∧
      (∀ p ∈ m.word_given_spam, 0 < p.2 ∧ p.2 ≤ 1) ∧
      (∀ p ∈ m.word_given_non_spam, 0 < p.2 ∧ p.2 ≤ 1) := by
  exact train_model_invariants ⟨["a", "spam"], [[1, 1], [2, 0]]⟩ 1
    (by simp) (by decide) (by constructor <;> decide) (by decide) (by norm_num)

/-- Explicit rate for the limit `α → ∞`: beyond this value of the
smoothing constant, the smoothed probability is within `e` of the uniform
value `1 / m`. -/
def convBound (s S m e : ℚ) : ℚ := |m * s - S| / (e * m ^ 2) + 1

lemma smoothed_toward_uniform (s S m a b : ℚ)
    (hS : 0 ≤ S) (hm : 1 ≤ m) (ha : 0 < a) (hab : a ≤ b) :
    ((s + a) / (S + a * m) ≤ 1 / m →
      (s + a) / (S + a * m) ≤ (s + b) / (S + b * m) ∧
      (s + b) / (S + b * m) ≤ 1 / m) ∧
    (1 / m ≤ (s + a) / (S + a * m) →
      (s + b) / (S + b * m) ≤ (s + a) / (S + a * m) ∧
      1 / m ≤ (s + b) / (S + b * m)) := by
  have hm0 : 0 < m := by linarith
  have hda : 0 < S + a * m := by nlinarith
  have hdb : 0 < S + b * m := by nlinarith
  constructor
  · intro hbelow
    have hkey : m * s ≤ S := by
      rw [div_le_div_iff hda hm0] at hbelow
      nlinarith
    constructor
    · rw [div_le_div_iff hda hdb]
      nlinarith
    · rw [div_le_div_iff hdb hm0]
      nlinarith
  · intro habove
    have hkey : S ≤ m * s := by
      rw [div_le_div_iff hm0 hda] at habove
      nlinarith
    constructor
    · rw [div_le_div_iff hdb hda]
      nlinarith
    · rw [div_le_div_iff hm0 hdb]
      nlinarith

lemma smoothed_conv (s S m e g : ℚ)
    (hS : 0 ≤ S) (hm : 1 ≤ m) (he : 0 < e)
    (hg : convBound s S m e ≤ g) :
    |(s + g) / (S + g * m) - 1 / m| < e := by
  have hm0 : 0 < m := by linarith
  have hem : 0 < e * m ^ 2 := by positivity
  have habs0 : 0 ≤ |m * s - S| := abs_nonneg _
  have hg1 : 1 ≤ g := by
    have : 0 ≤ |m * s - S| / (e * m ^ 2) := by positivity
    unfold convBound at hg
    linarith
  have hgpos : 0 < g := by linarith
  have hden : 0 < S + g * m := by nlinarith
  have key : (s + g) / (S + g * m) - 1 / m = (m * s - S) / (m * (S + g * m)) := by
    field_simp
    ring
  rw [key, abs_div, abs_of_pos (by positivity : (0:ℚ) < m * (S + g * m))]
  rw [div_lt_iff (by positivity)]
  have h3 : |m * s - S| + e * m ^ 2 ≤ e * m ^ 2 * g := by
    have h4 := mul_le_mul_of_nonneg_left hg (le_of_lt hem)
    rw [convBound, mul_add, mul_one, mul_div_cancel₀ _ (ne_of_gt hem)] at h4
    linarith
  nlinarith

/-- Claim C10: for a fixed fold and feature `j`, the smoothed conditional
probability `(sum + a) / (total + a * m)` produced by `train` moves
monotonically toward the uniform value `1 / m` as the smoothing constant
grows (non-decreasing while below it, non-increasing while above it), and
for any accuracy `e > 0` it is within `e` of `1 / m` for every smoothing
constant at least `convBound`; the same holds for the non-spam series. -/
theorem wordProb_toward_uniform (f : Frame) (j : Nat) (a b e g : ℚ)
    (hnn : ∀ r ∈ f.rows, ∀ x ∈ r, 0 ≤ x)
    (hj : j < nFeatures f)
    (ha : 0 < a) (hab : a ≤ b) (he : 0 < e)
    (hgs : convBound (spamWordSum f j) (totalSpamWordSum f) (nFeatures f) e ≤ g)
    (hgn : convBound (nonSpamWordSum f j) (totalNonSpamWordSum f) (nFeatures f) e ≤ g) :
    ((wordSpamProb f a j ≤ 1 / (nFeatures f : ℚ) →
        wordSpamProb f a j ≤ wordSpamProb f b j ∧
        wordSpamProb f b j ≤ 1 / (nFeatures f : ℚ)) ∧
     (1 / (nFeatures f : ℚ) ≤ wordSpamProb f a j →
        wordSpamProb f b j ≤ wordSpamProb f a j ∧
        1 / (nFeatures f : ℚ) ≤ wordSpamProb f b j) ∧
     |wordSpamProb f g j - 1 / (nFeatures f : ℚ)| < e) ∧
    ((wordNonSpamProb f a j ≤ 1 / (nFeatures f : ℚ) →
        wordNonSpamProb f a j ≤ wordNonSpamProb f b j ∧
        wordNonSpamProb f b j ≤ 1 / (nFeatures f : ℚ)) ∧
     (1 / (nFeatures f : ℚ) ≤ wordNonSpamProb f a j →
        wordNonSpamProb f b j ≤ wordNonSpamProb f a j ∧
        1 / (nFeatures f : ℚ) ≤ wordNonSpamProb f b j) ∧
     |wordNonSpamProb f g j - 1 / (nFeatures f : ℚ)| < e) := by
  have hm : 1 ≤ ((nFeatures f : ℚ)) := by
    exact_mod_cast Nat.one_le_iff_ne_zero.mpr (by omega)
  have hsub_spam : ∀ r ∈ spamRows f, r ∈ f.rows :=
    fun r hr => List.mem_of_mem_filter hr
  have hsub_non : ∀ r ∈ nonSpamRows f, r ∈ f.rows :=
    fun r hr => List.mem_of_mem_filter hr
  have hSs : 0 ≤ totalSpamWordSum f := by
    apply List.sum_nonneg
    intro x hx
    obtain ⟨i, _, rfl⟩ := List.mem_map.mp hx
    exact colSumQ_nonneg f (spamRows f) i hsub_spam hnn
  have hSn : 0 ≤ totalNonSpamWordSum f := by
    apply List.sum_nonneg
    intro x hx
    obtain ⟨i, _, rfl⟩ := List.mem_map.mp hx
    exact colSumQ_nonneg f (nonSpamRows f) i hsub_non hnn
  refine ⟨⟨?_, ?_, ?_⟩, ⟨?_, ?_, ?_⟩⟩
  · exact (smoothed_toward_uniform (spamWordSum f j) (totalSpamWordSum f)
      (nFeatures f) a b hSs hm ha hab).1
  · exact (smoothed_toward_uniform (spamWordSum f j) (totalSpamWordSum f)
      (nFeatures f) a b hSs hm ha hab).2
  · exact smoothed_conv (spamWordSum f j) (totalSpamWordSum f)
      (nFeatures f) e g hSs hm he hgs
  · exact (smoothed_toward_uniform (nonSpamWordSum f j) (totalNonSpamWordSum f)
      (nFeatures f) a b hSn hm ha hab).1
  · exact (smoothed_toward_uniform (nonSpamWordSum f j) (totalNonSpamWordSum f)
      (nFeatures f) a b hSn hm ha hab).2
  · exact smoothed_conv (nonSpamWordSum f j) (totalNonSpamWordSum f)
      (nFeatures f) e g hSn hm he hgn

/-- A concrete two-row fold (one spam row, one non-spam row) used by the
concrete witnesses. -/
def twoRowFold : Frame := ⟨["a", "spam"], [[1, 1], [2, 0]]⟩

/-- Witness for Claim C10 at the concrete fold `twoRowFold`, feature 0,
smoothing constants 1 ≤ 2, accuracy 1 and evaluation point 1. -/
theorem wordProb_toward_uniform_witness :
    ((wordSpamProb twoRowFold 1 0 ≤ 1 / (nFeatures twoRowFold : ℚ) →
        wordSpamProb twoRowFold 1 0 ≤ wordSpamProb twoRowFold 2 0 ∧
        wordSpamProb twoRowFold 2 0 ≤ 1 / (nFeatures twoRowFold : ℚ)) ∧
     (1 / (nFeatures twoRowFold : ℚ) ≤ wordSpamProb twoRowFold 1 0 →
        wordSpamProb twoRowFold 2 0 ≤ wordSpamProb twoRowFold 1 0 ∧
        1 / (nFeatures twoRowFold : ℚ) ≤ wordSpamProb twoRowFold 2 0) ∧
     |wordSpamProb twoRowFold 1 0 - 1 / (nFeatures twoRowFold : ℚ)| < 1) ∧
    ((wordNonSpamProb twoRowFold 1 0 ≤ 1 / (nFeatures twoRowFold : ℚ) →
        wordNonSpamProb twoRowFold 1 0 ≤ wordNonSpamProb twoRowFold 2 0 ∧
        wordNonSpamProb twoRowFold 2 0 ≤ 1 / (nFeatures twoRowFold : ℚ)) ∧
     (1 / (nFeatures twoRowFold : ℚ) ≤ wordNonSpamProb twoRowFold 1 0 →
        wordNonSpamProb twoRowFold 2 0 ≤ wordNonSpamProb twoRowFold 1 0 ∧
        1 / (nFeatures twoRowFold : ℚ) ≤ wordNonSpamProb twoRowFold 2 0) ∧
     |wordNonSpamProb twoRowFold 1 0 - 1 / (nFeatures twoRowFold : ℚ)| < 1) := by
  have hsr : spamRows twoRowFold = [[1, 1]] := rfl
  have hnr : nonSpamRows twoRowFold = [[2, 0]] := rfl
  have hnf : nFeatures twoRowFold = 1 := rfl
  have hr1 : List.range 1 = [0] := rfl
  have hs1 : spamWordSum twoRowFold 0 = 1 := by
    rw [spamWordSum, hsr]
    norm_num [colSumQ]
  have hn1 : nonSpamWordSum twoRowFold 0 = 2 := by
    rw [nonSpamWordSum, hnr]
    norm_num [colSumQ]
  have hS1 : totalSpamWordSum twoRowFold = 1 := by
    rw [totalSpamWordSum, hnf, hr1]
    norm_num [hs1]
  have hN1 : totalNonSpamWordSum twoRowFold = 2 := by
    rw [totalNonSpamWordSum, hnf, hr1]
    norm_num [hn1]
  apply wordProb_toward_uniform twoRowFold 0 1 2 1 1 (by decide)
    (by decide) (by norm_num) (by norm_num) (by norm_num)
  · rw [hs1, hS1, hnf]
    norm_num [convBound]
  · rw [hn1, hN1, hnf]
    norm_num [convBound]

/-- Real-valued DataFrame for the predictor, the evaluator and the
correlation filter, whose arithmetic (logarithms, square roots) lives in
the reals. -/
structure RFrame where
  columns : List String
  rows : List (List ℝ)

/-- Real-valued model parameters consumed by `predict`: the two priors and
the two conditional-probability series indexed by feature name. -/
structure RModel where
  prior_spam : ℝ
  prior_non_spam : ℝ
  word_given_spam : List (String × ℝ)
  word_given_non_spam : List (String × ℝ)

/-- Embedding of the accumulation loop of `predict` (source lines 44-54):
starting from the two log-priors, each word of the email adds
`freq * log(P(word given class))` to the corresponding score whenever the
word is present in that class's conditional series, and is skipped
otherwise. -/
noncomputable def scores (email : List (String × ℝ)) (m : RModel) : ℝ × ℝ :=
  email.foldl
    (fun acc wf =>
      (match m.word_given_spam.lookup wf.1 with
        | some p => acc.1 + wf.2 * Real.log p
        | none => acc.1,
       match m.word_given_non_spam.lookup wf.1 with
        | some p => acc.2 + wf.2 * Real.log p
        | none => acc.2))
    (Real.log m.prior_spam, Real.log m.prior_non_spam)

/-- `predict` returns `spam_prob > non_spam_prob` (source line 57). -/
def predictP (email : List (String × ℝ)) (m : RModel) : Prop :=
  (scores email m).1 > (scores email m).2

open Classical in
/-- The boolean value `predict` actually returns. -/
noncomputable def predictB (email : List (String × ℝ)) (m : RModel) : Bool :=
  decide (predictP email m)

lemma scores_foldl_aux (ws wn : List (String × ℝ)) :
    ∀ (email : List (String × ℝ)) (i1 i2 : ℝ),
      email.foldl
        (fun acc wf =>
          (match ws.lookup wf.1 with
            | some p => acc.1 + wf.2 * Real.log p
            | none => acc.1,
           match wn.lookup wf.1 with
            | some p => acc.2 + wf.2 * Real.log p
            | none => acc.2)) (i1, i2) =
      (i1 + (email.map (fun wf =>
          match ws.lookup wf.1 with
          | some p => wf.2 * Real.log p
          | none => 0)).sum,
       i2 + (email.map (fun wf =>
          match wn.lookup wf.1 with
          | some p => wf.2 * Real.log p
          | none => 0)).sum) := by
  intro email
  induction email with
  | nil =>
    intro i1 i2
    simp
  | cons wf t ih =>
    intro i1 i2
    rw [List.foldl_cons, List.map_cons, List.map_cons, List.sum_cons,
      List.sum_cons]
    cases hws : ws.lookup wf.1 <;> cases hwn : wn.lookup wf.1 <;>
      simp only [hws, hwn] <;> rw [ih] <;> rw [Prod.mk.injEq] <;>
      exact ⟨by ring, by ring⟩

/-- Claim C3: `predict` returns true exactly when the spam log-score
`log(prior_spam) + Σ value * log(P(word given spam))` strictly exceeds the
non-spam log-score, where each sum ranges only over the email's words that
are present in the corresponding conditional series — a word absent from
the trained vocabulary contributes nothing to that score (and the function
is total: no error is possible). -/
theorem predict_iff_log_scores (email : List (String × ℝ)) (m : RModel) :
    predictB email m = true ↔
      Real.log m.prior_spam +
        (email.map (fun wf =>
          match m.word_given_spam.lookup wf.1 with
          | some p => wf.2 * Real.log p
          | none => 0)).sum >
      Real.log m.prior_non_spam +
        (email.map (fun wf =>
          match m.word_given_non_spam.lookup wf.1 with
          | some p => wf.2 * Real.log p
          | none => 0)).sum := by
  unfold predictB
  constructor
  · intro h
    have hp := @of_decide_eq_true _ (Classical.propDecidable _) h
    unfold predictP scores at hp
    rwa [scores_foldl_aux] at hp
  · intro h
    apply @decide_eq_true _ (Classical.propDecidable _)
    unfold predictP scores
    rwa [scores_foldl_aux]

/-- `email = row.drop('spam').to_dict()`: the row's name-value pairs in
column order with the label column removed. -/
def emailOf (cols : List String) (r : List ℝ) : List (String × ℝ) :=
  (cols.zip r).filter (fun p => !(p.1 == "spam"))

/-- `row['spam']`: the row's label value. -/
def labelR (cols : List String) (r : List ℝ) : ℝ :=
  ((cols.zip r).lookup "spam").getD 0

/-- The numeric value of the boolean prediction, as Python compares it to
the numeric label (`True == 1.0`, `False == 0.0`). -/
noncomputable def predVal (cols : List String) (m : RModel) (r : List ℝ) : ℝ :=
  if predictB (emailOf cols r) m then 1 else 0

open Classical in
/-- The test of `prediction == spam_label` (source line 80). -/
noncomputable def isCorrect (cols : List String) (m : RModel) (r : List ℝ) :
    Bool :=
  decide (predVal cols m r = labelR cols r)

/-- Embedding of the accumulation loop of `test` (source lines 70-88): per
row, `correct` is incremented when the prediction equals the label;
`true_positive` when additionally the prediction is positive;
`false_positive` when the prediction is positive but wrong.  Result order:
(correct, true_positive, false_positive). -/
noncomputable def testCounts (f : RFrame) (m : RModel) : Nat × Nat × Nat :=
  f.rows.foldl
    (fun acc r =>
      if isCorrect f.columns m r then
        (acc.1 + 1,
         if predictB (emailOf f.columns r) m then acc.2.1 + 1 else acc.2.1,
         acc.2.2)
      else
        (acc.1, acc.2.1,
         if predictB (emailOf f.columns r) m then acc.2.2 + 1 else acc.2.2))
    (0, 0, 0)

open Classical in
/-- The result of `test`: after the counting loop, the call
`auc = roc_auc_score(spam_labels, predictions)` (source line 91) raises
`ValueError` when the collected labels `y_true` hold fewer than two
distinct values — before the three ratios of lines 94-97 are ever
computed.  The embedding models that guard; in the non-error case it
returns the three ratios in source order `(acc, fp_rate, tp_rate)`.  The
AUC value itself is the external library's rank-based computation and is
not modelled; for the data model's binary 0/1 labels its only effect on
the rates' contract is this single-class `ValueError`. -/
noncomputable def testEval (f : RFrame) (m : RModel) :
    Except PyErr (ℝ × ℝ × ℝ) :=
  if ∀ x ∈ f.rows.map (fun r => labelR f.columns r),
     ∀ y ∈ f.rows.map (fun r => labelR f.columns r), x = y then
    .error .valueError
  else
    .ok ((testCounts f m).1 / (f.rows.length : ℝ),
         (testCounts f m).2.2 / (f.rows.length : ℝ),
         (testCounts f m).2.1 / (f.rows.length : ℝ))

/-- Number of test rows whose prediction equals their label. -/
noncomputable def countCorrect (f : RFrame) (m : RModel) : Nat :=
  f.rows.countP (fun r => isCorrect f.columns m r)

open Classical in
/-- Number of test rows with positive prediction and label 1. -/
noncomputable def countTP (f : RFrame) (m : RModel) : Nat :=
  f.rows.countP (fun r =>
    predictB (emailOf f.columns r) m && decide (labelR f.columns r = 1))

open Classical in
/-- Number of test rows with positive prediction and label 0. -/
noncomputable def countFP (f : RFrame) (m : RModel) : Nat :=
  f.rows.countP (fun r =>
    predictB (emailOf f.columns r) m && decide (labelR f.columns r = 0))

lemma testCounts_foldl (cols : List String) (m : RModel) :
    ∀ (rows : List (List ℝ)) (c t p : Nat),
      rows.foldl
        (fun acc r =>
          if isCorrect cols m r then
            (acc.1 + 1,
             if predictB (emailOf cols r) m then acc.2.1 + 1 else acc.2.1,
             acc.2.2)
          else
            (acc.1, acc.2.1,
             if predictB (emailOf cols r) m then acc.2.2 + 1 else acc.2.2))
        (c, t, p) =
      (c + rows.countP (fun r => isCorrect cols m r),
       t + rows.countP (fun r =>
         isCorrect cols m r && predictB (emailOf cols r) m),
       p + rows.countP (fun r =>
         !isCorrect cols m r && predictB (emailOf cols r) m)) := by
  intro rows
  induction rows with
  | nil =>
    intro c t p
    simp
  | cons r rs ih =>
    intro c t p
    rw [List.foldl_cons]
    cases hc : isCorrect cols m r <;>
      cases hp : predictB (emailOf cols r) m <;>
      simp only [hc, hp, if_true, if_false, Bool.false_and, Bool.true_and,
        Bool.not_false, Bool.not_true, Bool.false_eq_true, ite_true,
        ite_false, List.countP_cons, ih] <;>
      simp <;> omega

lemma cdecide_true_iff (p : Prop) :
    @decide p (Classical.propDecidable p) = true ↔ p :=
  ⟨fun h => @of_decide_eq_true p (Classical.propDecidable p) h,
   fun h => @decide_eq_true p (Classical.propDecidable p) h⟩

lemma isCorrect_iff (cols : List String) (m : RModel) (r : List ℝ) :
    isCorrect cols m r = true ↔ predVal cols m r = labelR cols r := by
  unfold isCorrect
  exact cdecide_true_iff _

lemma isCorrect_false_iff (cols : List String) (m : RModel) (r : List ℝ) :
    isCorrect cols m r = false ↔ ¬ predVal cols m r = labelR cols r := by
  unfold isCorrect
  constructor
  · exact fun h => @of_decide_eq_false _ (Classical.propDecidable _) h
  · exact fun h => @decide_eq_false _ (Classical.propDecidable _) h

lemma predVal_of_true (cols : List String) (m : RModel) (r : List ℝ)
    (hp : predictB (emailOf cols r) m = true) : predVal cols m r = 1 := by
  unfold predVal
  rw [hp]
  simp

/-- Claim C4 (amended): on a non-empty test set with binary labels whose
labels take both values, the evaluator returns exactly
`(correct / total, false_positive / total, true_positive / total)` where
`total` is the number of test rows, `correct` counts rows whose prediction
equals their label, `true_positive` counts rows with positive prediction
and label 1, and `false_positive` counts rows with positive prediction and
label 0 — both rates divided by the total row count, not by a class count;
but on a test set whose labels are all of one class, `roc_auc_score`
raises `ValueError` before the rates are computed and nothing is
returned. -/
theorem testEval_rates :
    (∀ (f : RFrame) (m : RModel),
      f.rows ≠ [] →
      (∀ r ∈ f.rows, labelR f.columns r = 0 ∨ labelR f.columns r = 1) →
      (∃ r1 ∈ f.rows, ∃ r2 ∈ f.rows,
        labelR f.columns r1 ≠ labelR f.columns r2) →
      testEval f m = .ok
        ((countCorrect f m : ℝ) / (f.rows.length : ℝ),
         (countFP f m : ℝ) / (f.rows.length : ℝ),
         (countTP f m : ℝ) / (f.rows.length : ℝ))) ∧
    (∀ (f : RFrame) (m : RModel),
      (∀ x ∈ f.rows.map (fun r => labelR f.columns r),
       ∀ y ∈ f.rows.map (fun r => labelR f.columns r), x = y) →
      testEval f m = .error .valueError) := by
  constructor
  case right =>
    intro f m hall
    unfold testEval
    rw [if_pos hall]
  case left =>
    intro f m hne hlab htwo
    have hcond : ¬ (∀ x ∈ f.rows.map (fun r => labelR f.columns r),
        ∀ y ∈ f.rows.map (fun r => labelR f.columns r), x = y) := by
      obtain ⟨r1, hr1, r2, hr2, hne12⟩ := htwo
      intro hall
      exact hne12 (hall _ (List.mem_map_of_mem _ hr1)
        _ (List.mem_map_of_mem _ hr2))
    have hcounts : testCounts f m =
        (countCorrect f m,
         f.rows.countP (fun r =>
           isCorrect f.columns m r && predictB (emailOf f.columns r) m),
         f.rows.countP (fun r =>
           !isCorrect f.columns m r && predictB (emailOf f.columns r) m)) := by
      unfold testCounts countCorrect
      rw [testCounts_foldl f.columns m f.rows 0 0 0]
      simp
    have htp : f.rows.countP (fun r =>
        isCorrect f.columns m r && predictB (emailOf f.columns r) m) =
        countTP f m := by
      apply List.countP_congr
      intro r hr
      rcases hlab r hr with h0 | h1 <;>
        cases hp : predictB (emailOf f.columns r) m
      · simp [hp]
      · rw [Bool.and_eq_true, Bool.and_eq_true, isCorrect_iff,
          cdecide_true_iff, predVal_of_true f.columns m r hp, h0]
        norm_num
      · simp [hp]
      · rw [Bool.and_eq_true, Bool.and_eq_true, isCorrect_iff,
          cdecide_true_iff, predVal_of_true f.columns m r hp, h1]
        norm_num
    have hfp : f.rows.countP (fun r =>
        !isCorrect f.columns m r && predictB (emailOf f.columns r) m) =
        countFP f m := by
      apply List.countP_congr
      intro r hr
      rcases hlab r hr with h0 | h1 <;>
        cases hp : predictB (emailOf f.columns r) m
      · simp [hp]
      · rw [Bool.and_eq_true, Bool.and_eq_true, Bool.not_eq_true',
          isCorrect_false_iff, cdecide_true_iff,
          predVal_of_true f.columns m r hp, h0]
        norm_num
      · simp [hp]
      · rw [Bool.and_eq_true, Bool.and_eq_true, Bool.not_eq_true',
          isCorrect_false_iff, cdecide_true_iff,
          predVal_of_true f.columns m r hp, h1]
        norm_num
    unfold testEval
    rw [if_neg hcond, hcounts, htp, hfp]

/-- Claim C4 counterexample: on the non-empty one-row test set whose only
label is 1, `test` does not return the three rates — `roc_auc_score` sees
a single class in `y_true` and raises `ValueError` before the rates are
computed. -/
theorem testEval_singleclass_counterexample :
    testEval ⟨["w", "spam"], [[2, 1]]⟩ ⟨1, 1, [("w", 1)], []⟩ =
      .error .valueError := by
  have hcond : ∀ x ∈ (RFrame.mk ["w", "spam"] [[2, 1]]).rows.map
      (fun r => labelR (RFrame.mk ["w", "spam"] [[2, 1]]).columns r),
      ∀ y ∈ (RFrame.mk ["w", "spam"] [[2, 1]]).rows.map
      (fun r => labelR (RFrame.mk ["w", "spam"] [[2, 1]]).columns r),
      x = y := by
    have hl : (RFrame.mk ["w", "spam"] [[2, 1]]).rows.map
        (fun r => labelR (RFrame.mk ["w", "spam"] [[2, 1]]).columns r) =
        [(1 : ℝ)] := rfl
    rw [hl]
    intro x hx y hy
    rw [List.mem_singleton] at hx hy
    rw [hx, hy]
  unfold testEval
  rw [if_pos hcond]

/-- Witness for Claim C4 at a two-row test set holding one row of each
class, and a concrete model. -/
theorem testEval_rates_witness :
    testEval ⟨["w", "spam"], [[2, 1], [3, 0]]⟩ ⟨1, 1, [("w", 1)], []⟩ = .ok
      ((countCorrect ⟨["w", "spam"], [[2, 1], [3, 0]]⟩
          ⟨1, 1, [("w", 1)], []⟩ : ℝ) /
        ((RFrame.mk ["w", "spam"] [[2, 1], [3, 0]]).rows.length : ℝ),
       (countFP ⟨["w", "spam"], [[2, 1], [3, 0]]⟩
          ⟨1, 1, [("w", 1)], []⟩ : ℝ) /
        ((RFrame.mk ["w", "spam"] [[2, 1], [3, 0]]).rows.length : ℝ),
       (countTP ⟨["w", "spam"], [[2, 1], [3, 0]]⟩
          ⟨1, 1, [("w", 1)], []⟩ : ℝ) /
        ((RFrame.mk ["w", "spam"] [[2, 1], [3, 0]]).rows.length : ℝ)) := by
  apply testEval_rates.1
  · simp
  · intro r hr
    simp only [List.mem_cons, List.not_mem_nil, or_false] at hr
    rcases hr with rfl | rfl
    · right
      rfl
    · left
      rfl
  · refine ⟨[2, 1], by simp, [3, 0], by simp, ?_⟩
    rw [show labelR (RFrame.mk ["w", "spam"] [[2, 1], [3, 0]]).columns [2, 1] =
        (1 : ℝ) from rfl,
      show labelR (RFrame.mk ["w", "spam"] [[2, 1], [3, 0]]).columns [3, 0] =
        (0 : ℝ) from rfl]
    norm_num

/-- Column `i` of a real frame, as the list of its values down the rows. -/
def colR (f : RFrame) (i : Nat) : List ℝ := f.rows.map (fun r => r.getD i 0)

/-- Mean of a column. -/
noncomputable def meanR (xs : List ℝ) : ℝ := xs.sum / xs.length

/-- Sum of products of deviations from the means — the numerator of the
Pearson correlation (the 1/(n-1) factors cancel in the ratio). -/
noncomputable def covSum (xs ys : List ℝ) : ℝ :=
  ((xs.zip ys).map (fun p => (p.1 - meanR xs) * (p.2 - meanR ys))).sum

/-- Sum of squared deviations from the mean. -/
noncomputable def varSum (xs : List ℝ) : ℝ := covSum xs xs

/-- Pearson correlation coefficient of two columns, as `data.corr()`
computes it. -/
noncomputable def pearson (xs ys : List ℝ) : ℝ :=
  covSum xs ys / (Real.sqrt (varSum xs) * Real.sqrt (varSum ys))

/-- The comparison `matrix.iloc[i, j] > threshold` on the absolute
correlation matrix (source line 113).  When either column has zero
variance, pandas produces NaN for the entry and the `>` comparison is
False; the two variance conjuncts embed exactly that behaviour. -/
def exceeds (f : RFrame) (t : ℝ) (i j : Nat) : Prop :=
  varSum (colR f i) ≠ 0 ∧ varSum (colR f j) ≠ 0 ∧
    |pearson (colR f i) (colR f j)| > t

/-- Column position `i` is added to `correlated_features` when some lower
position `j < i` exceeds the threshold (source lines 111-115: `for i`,
`for j in range(i)`). -/
def markedIdx (f : RFrame) (t : ℝ) (i : Nat) : Prop :=
  ∃ j, j < i ∧ exceeds f t i j

/-- `correlated_features` is a set of column names
(`matrix.columns[i]`). -/
def markedName (f : RFrame) (t : ℝ) (c : String) : Prop :=
  ∃ i, i < f.columns.length ∧ f.columns.getD i "" = c ∧ markedIdx f t i

/-- Boolean membership test in `correlated_features`. -/
noncomputable def markedNameB (f : RFrame) (t : ℝ) (c : String) : Bool :=
  @decide (markedName f t c) (Classical.propDecidable _)

/-- Column positions that survive `data.drop(columns=correlated_features)`,
in their original order. -/
noncomputable def keepIdx (f : RFrame) (t : ℝ) : List Nat :=
  (List.range f.columns.length).filter
    (fun j => !markedNameB f t (f.columns.getD j ""))

/-- Embedding of `remove_correlated` (source lines 102-120): drop every
column whose name was marked, keeping all other columns and all rows in
order. -/
noncomputable def removeCorrelated (f : RFrame) (t : ℝ) : RFrame :=
  { columns := (keepIdx f t).map (fun j => f.columns.getD j "")
    rows := f.rows.map (fun r => (keepIdx f t).map (fun j => r.getD j 0)) }

lemma markedNameB_false_iff (f : RFrame) (t : ℝ) (c : String) :
    markedNameB f t c = false ↔ ¬ markedName f t c := by
  unfold markedNameB
  constructor
  · exact fun h => @of_decide_eq_false _ (Classical.propDecidable _) h
  · exact fun h => @decide_eq_false _ (Classical.propDecidable _) h

lemma mem_keepIdx (f : RFrame) (t : ℝ) (j : Nat) :
    j ∈ keepIdx f t ↔
      j < f.columns.length ∧ ¬ markedName f t (f.columns.getD j "") := by
  unfold keepIdx
  rw [List.mem_filter, List.mem_range, Bool.not_eq_true',
    markedNameB_false_iff]

lemma keepIdx_sorted (f : RFrame) (t : ℝ) :
    List.Pairwise (· < ·) (keepIdx f t) :=
  (List.pairwise_lt_range _).filter _

lemma varSum_zero_of_all_zero (xs : List ℝ) (h : ∀ x ∈ xs, x = 0) :
    varSum xs = 0 := by
  unfold varSum covSum
  apply List.sum_eq_zero
  intro y hy
  obtain ⟨p, hp, rfl⟩ := List.mem_map.mp hy
  have h1 : p.1 = 0 := h _ (List.of_mem_zip hp).1
  have h2 : p.2 = 0 := h _ (List.of_mem_zip hp).2
  have hm : meanR xs = 0 := by
    unfold meanR
    rw [List.sum_eq_zero h]
    simp
  rw [h1, h2, hm]
  ring

lemma rows_length_removeCorrelated (f : RFrame) (t : ℝ) :
    ∀ r ∈ (removeCorrelated f t).rows, r.length = (keepIdx f t).length := by
  intro r hr
  obtain ⟨r0, _, rfl⟩ := List.mem_map.mp hr
  simp

lemma colR_removeCorrelated_lt (f : RFrame) (t : ℝ) (i : Nat)
    (h : i < (keepIdx f t).length) :
    colR (removeCorrelated f t) i = colR f ((keepIdx f t).get ⟨i, h⟩) := by
  unfold colR removeCorrelated
  rw [List.map_map]
  apply List.map_congr_left
  intro r _
  show ((keepIdx f t).map (fun j => r.getD j 0)).getD i 0 =
    r.getD ((keepIdx f t).get ⟨i, h⟩) 0
  rw [List.getD_eq_getElem _ _ (by simpa using h), List.getElem_map]
  rfl

lemma colR_removeCorrelated_ge (f : RFrame) (t : ℝ) (i : Nat)
    (h : (keepIdx f t).length ≤ i) :
    ∀ x ∈ colR (removeCorrelated f t) i, x = 0 := by
  intro x hx
  obtain ⟨r, hr, rfl⟩ := List.mem_map.mp hx
  have hlen := rows_length_removeCorrelated f t r hr
  rw [List.getD_eq_default _ _ (by omega)]

lemma not_markedIdx_removeCorrelated (f : RFrame) (t : ℝ) (i : Nat) :
    ¬ markedIdx (removeCorrelated f t) t i := by
  rintro ⟨j, hji, hvi, hvj, hcorr⟩
  by_cases hi : i < (keepIdx f t).length
  case neg =>
    exact hvi (varSum_zero_of_all_zero _ (colR_removeCorrelated_ge f t i (by omega)))
  case pos =>
    have hj : j < (keepIdx f t).length := by omega
    have hci := colR_removeCorrelated_lt f t i hi
    have hcj := colR_removeCorrelated_lt f t j hj
    rw [hci] at hvi hcorr
    rw [hcj] at hvj hcorr
    set a := (keepIdx f t).get ⟨j, hj⟩ with ha
    set b := (keepIdx f t).get ⟨i, hi⟩ with hb
    have hab : a < b :=
      List.pairwise_iff_get.mp (keepIdx_sorted f t)
        (⟨j, hj⟩ : Fin (keepIdx f t).length)
        (⟨i, hi⟩ : Fin (keepIdx f t).length) hji
    have hbmem : b ∈ keepIdx f t := List.get_mem _ _ _
    have hkeep := (mem_keepIdx f t b).mp hbmem
    exact hkeep.2 ⟨b, hkeep.1, rfl, a, hab, hvi, hvj, hcorr⟩

lemma not_markedName_removeCorrelated (f : RFrame) (t : ℝ) (c : String) :
    ¬ markedName (removeCorrelated f t) t c := by
  rintro ⟨i, _, _, hmk⟩
  exact not_markedIdx_removeCorrelated f t i hmk

lemma map_range_getD (l : List α) (d : α) :
    (List.range l.length).map (fun j => l.getD j d) = l := by
  apply List.ext_getElem (by simp)
  intro i hi hi2
  have hr : i < (List.range l.length).length := by simpa using hi2
  rw [List.getElem_map, List.getElem_range, List.getD_eq_getElem _ _ hi2]

/-- Claim C9: the correlation filter is idempotent — applying
`remove_correlated` a second time with the same threshold to an
already-filtered dataset removes nothing and returns it unchanged.  Any
pair of surviving columns with correlation above the threshold would have
had its higher-index member's name marked and dropped in the first pass
(the column values themselves are untouched by the drop). -/
theorem removeCorrelated_idempotent (f : RFrame) (t : ℝ) :
    removeCorrelated (removeCorrelated f t) t = removeCorrelated f t := by
  set g := removeCorrelated f t with hg
  have hkeep : keepIdx g t = List.range g.columns.length := by
    unfold keepIdx
    apply List.filter_eq_self.mpr
    intro j _
    rw [Bool.not_eq_true', markedNameB_false_iff]
    exact not_markedName_removeCorrelated f t _
  have hrl : ∀ r ∈ g.rows, r.length = g.columns.length := by
    intro r hr
    have := rows_length_removeCorrelated f t r (hg ▸ hr)
    have hcl : g.columns.length = (keepIdx f t).length := by
      rw [hg]
      unfold removeCorrelated
      simp
    omega
  show removeCorrelated g t = g
  unfold removeCorrelated
  rw [hkeep, map_range_getD]
  have hrows : g.rows.map
      (fun r => (List.range g.columns.length).map (fun j => r.getD j 0)) =
      g.rows := by
    have : ∀ r ∈ g.rows,
        (List.range g.columns.length).map (fun j => r.getD j 0) = r := by
      intro r hr
      rw [← hrl r hr]
      exact map_range_getD r 0
    calc g.rows.map
          (fun r => (List.range g.columns.length).map (fun j => r.getD j 0))
        = g.rows.map id := List.map_congr_left this
      _ = g.rows := List.map_id g.rows
  rw [hrows]

/-- A dataset with one feature `u` and the label `spam` holding identical
values: the label is perfectly correlated with the feature. -/
def pairFrame : RFrame := ⟨["u", "spam"], [[0, 0], [1, 1]]⟩

/-- A dataset with two identical features `x`, `y` and a constant label
column. -/
def tripleFrame : RFrame := ⟨["x", "y", "spam"], [[0, 0, 0], [1, 1, 0]]⟩

lemma varSum01 : varSum [(0 : ℝ), 1] = 1 / 2 := by
  have hm : meanR [(0 : ℝ), 1] = 1 / 2 := by
    unfold meanR
    norm_num
  unfold varSum covSum
  rw [hm]
  norm_num [List.zip_cons_cons]

lemma pearson01 : pearson [(0 : ℝ), 1] [(0 : ℝ), 1] = 1 := by
  unfold pearson
  rw [show covSum [(0 : ℝ), 1] [(0 : ℝ), 1] = varSum [(0 : ℝ), 1] from rfl,
    varSum01, Real.mul_self_sqrt (by norm_num : (0 : ℝ) ≤ 1 / 2)]
  norm_num

lemma varSum00 : varSum [(0 : ℝ), 0] = 0 := by
  apply varSum_zero_of_all_zero
  intro x hx
  simpa using hx

lemma exceeds_pair : exceeds pairFrame (99 / 100) 1 0 := by
  refine ⟨?_, ?_, ?_⟩
  · rw [show colR pairFrame 1 = [(0 : ℝ), 1] from rfl, varSum01]
    norm_num
  · rw [show colR pairFrame 0 = [(0 : ℝ), 1] from rfl, varSum01]
    norm_num
  · rw [show colR pairFrame 1 = [(0 : ℝ), 1] from rfl,
      show colR pairFrame 0 = [(0 : ℝ), 1] from rfl, pearson01]
    norm_num

lemma marked_spam_pair : markedName pairFrame (99 / 100) "spam" :=
  ⟨1, by decide, rfl, 0, Nat.zero_lt_one, exceeds_pair⟩

lemma not_marked_u_pair : ¬ markedName pairFrame (99 / 100) "u" := by
  rintro ⟨i, hi, hname, j, hj, hex⟩
  have hi2 : i < 2 := hi
  interval_cases i
  · omega
  · exact absurd hname (by decide)

lemma keepIdx_pair : keepIdx pairFrame (99 / 100) = [0] := by
  have h0 : markedNameB pairFrame (99 / 100) "u" = false :=
    (markedNameB_false_iff _ _ _).mpr not_marked_u_pair
  have h1 : markedNameB pairFrame (99 / 100) "spam" = true := by
    unfold markedNameB
    exact @decide_eq_true _ (Classical.propDecidable _) marked_spam_pair
  unfold keepIdx
  rw [show List.range pairFrame.columns.length = [0, 1] from rfl,
    List.filter_cons, List.filter_cons, List.filter_nil]
  simp only [show pairFrame.columns.getD 0 "" = "u" from rfl,
    show pairFrame.columns.getD 1 "" = "spam" from rfl, h0, h1]
  simp

lemma remove_pair : removeCorrelated pairFrame (99 / 100) =
    ⟨["u"], [[0], [1]]⟩ := by
  unfold removeCorrelated
  rw [keepIdx_pair]
  rfl

lemma exceeds_triple : exceeds tripleFrame (99 / 100) 1 0 := by
  refine ⟨?_, ?_, ?_⟩
  · rw [show colR tripleFrame 1 = [(0 : ℝ), 1] from rfl, varSum01]
    norm_num
  · rw [show colR tripleFrame 0 = [(0 : ℝ), 1] from rfl, varSum01]
    norm_num
  · rw [show colR tripleFrame 1 = [(0 : ℝ), 1] from rfl,
      show colR tripleFrame 0 = [(0 : ℝ), 1] from rfl, pearson01]
    norm_num

lemma marked_y_triple : markedName tripleFrame (99 / 100) "y" :=
  ⟨1, by decide, rfl, 0, Nat.zero_lt_one, exceeds_triple⟩

lemma not_marked_x_triple : ¬ markedName tripleFrame (99 / 100) "x" := by
  rintro ⟨i, hi, hname, j, hj, hex⟩
  have hi2 : i < 3 := hi
  interval_cases i
  · omega
  · exact absurd hname (by decide)
  · exact absurd hname (by decide)

lemma not_marked_spam_triple : ¬ markedName tripleFrame (99 / 100) "spam" := by
  rintro ⟨i, hi, hname, j, hj, hex⟩
  have hi2 : i < 3 := hi
  interval_cases i
  · omega
  · exact absurd hname (by decide)
  · refine absurd hex.1 ?_
    rw [show colR tripleFrame 2 = [(0 : ℝ), 0] from rfl, varSum00]
    simp

lemma keepIdx_triple : keepIdx tripleFrame (99 / 100) = [0, 2] := by
  have h0 : markedNameB tripleFrame (99 / 100) "x" = false :=
    (markedNameB_false_iff _ _ _).mpr not_marked_x_triple
  have h1 : markedNameB tripleFrame (99 / 100) "y" = true := by
    unfold markedNameB
    exact @decide_eq_true _ (Classical.propDecidable _) marked_y_triple
  have h2 : markedNameB tripleFrame (99 / 100) "spam" = false :=
    (markedNameB_false_iff _ _ _).mpr not_marked_spam_triple
  unfold keepIdx
  rw [show List.range tripleFrame.columns.length = [0, 1, 2] from rfl,
    List.filter_cons, List.filter_cons, List.filter_cons, List.filter_nil]
  simp only [show tripleFrame.columns.getD 0 "" = "x" from rfl,
    show tripleFrame.columns.getD 1 "" = "y" from rfl,
    show tripleFrame.columns.getD 2 "" = "spam" from rfl, h0, h1, h2]
  simp

lemma remove_triple : removeCorrelated tripleFrame (99 / 100) =
    ⟨["x", "spam"], [[0, 0], [1, 0]]⟩ := by
  unfold removeCorrelated
  rw [keepIdx_triple]
  rfl

lemma marked_getD_not_mem (f : RFrame) (t : ℝ) (i j : Nat)
    (hj : j < i) (hi : i < f.columns.length) (hex : exceeds f t i j) :
    f.columns.getD i "" ∉ (removeCorrelated f t).columns := by
  intro hmem
  obtain ⟨k, hk, hkeq⟩ := List.mem_map.mp hmem
  have hkk := (mem_keepIdx f t k).mp hk
  apply hkk.2
  rw [hkeq]
  exact ⟨i, hi, rfl, j, hj, hex⟩

lemma unmarked_getD_mem (f : RFrame) (t : ℝ) (i : Nat)
    (hi : i < f.columns.length)
    (hnm : ¬ markedName f t (f.columns.getD i "")) :
    f.columns.getD i "" ∈ (removeCorrelated f t).columns := by
  show f.columns.getD i "" ∈
    (keepIdx f t).map (fun j => f.columns.getD j "")
  apply List.mem_map_of_mem
  exact (mem_keepIdx f t i).mpr ⟨hi, hnm⟩

/-- Claim C5 (amended): the filter computes the absolute pairwise Pearson
correlation between every pair of distinct columns — the label column
included, not only feature pairs.  A zero-variance column's undefined
correlations never exceed the threshold (first conjunct), every pair whose
absolute correlation strictly exceeds the threshold has the column with
the higher original index removed (second conjunct), every column whose
name is never marked survives in order with rows otherwise unchanged
(third conjunct), and for `tripleFrame`, which holds two identical feature
columns and a constant label, filtering at threshold 0.99 removes exactly
the higher-indexed `y` of the two identical features (fourth conjunct). -/
theorem corrFilter_spec :
    (∀ (f : RFrame) (t : ℝ) (i j : Nat),
        varSum (colR f i) = 0 ∨ varSum (colR f j) = 0 → ¬ exceeds f t i j) ∧
    (∀ (f : RFrame) (t : ℝ) (i j : Nat),
        j < i → i < f.columns.length → exceeds f t i j →
        f.columns.getD i "" ∉ (removeCorrelated f t).columns) ∧
    (∀ (f : RFrame) (t : ℝ) (i : Nat),
        i < f.columns.length → ¬ markedName f t (f.columns.getD i "") →
        f.columns.getD i "" ∈ (removeCorrelated f t).columns) ∧
    removeCorrelated tripleFrame (99 / 100) =
      ⟨["x", "spam"], [[0, 0], [1, 0]]⟩ := by
  refine ⟨?_, marked_getD_not_mem, unmarked_getD_mem, remove_triple⟩
  rintro f t i j (h | h) ⟨h1, h2, _⟩
  · exact h1 h
  · exact h2 h

/-- Claim C5 counterexample: `pairFrame` has a single feature `u`, so no
pair of distinct features exists and the claim, as stated, predicts that
filtering removes nothing; but the code's correlation matrix includes the
label column, whose correlation with `u` is 1, so filtering at threshold
0.99 removes the label column and the result is not the unchanged
dataset. -/
theorem corrFilter_feature_pairs_counterexample :
    removeCorrelated pairFrame (99 / 100) = ⟨["u"], [[0], [1]]⟩ ∧
    (removeCorrelated pairFrame (99 / 100)).columns ≠ pairFrame.columns := by
  refine ⟨remove_pair, ?_⟩
  rw [remove_pair]
  simp [pairFrame]

/-- Witness for Claim C5: the higher-indexed member `y` of the identical
pair in `tripleFrame` is removed. -/
theorem corrFilter_spec_witness :
    tripleFrame.columns.getD 1 "" ∉
      (removeCorrelated tripleFrame (99 / 100)).columns :=
  corrFilter_spec.2.1 tripleFrame (99 / 100) 1 0 Nat.zero_lt_one (by decide)
    exceeds_triple

/-- Claim C8: the correlation matrix ranges over every column of the
table, the label `spam` included.  Any pair exceeding the threshold marks
the column with the higher index (first conjunct), so a feature's removal
reason only ever involves columns of strictly lower index — never the
label, which sits last (second conjunct).  On `pairFrame`, whose label
duplicates the feature `u`, filtering at threshold 0.99 removes the label
column itself and the result has no label column at all (remaining
conjuncts). -/
theorem corrFilter_includes_label :
    (∀ (f : RFrame) (t : ℝ) (i j : Nat),
        j < i → i < f.columns.length → exceeds f t i j →
        markedName f t (f.columns.getD i "")) ∧
    (∀ (f : RFrame) (t : ℝ) (i : Nat),
        i + 1 < f.columns.length → markedIdx f t i →
        ∃ j, j < i ∧ j + 1 < f.columns.length ∧ exceeds f t i j) ∧
    removeCorrelated pairFrame (99 / 100) = ⟨["u"], [[0], [1]]⟩ ∧
    "spam" ∉ (removeCorrelated pairFrame (99 / 100)).columns := by
  refine ⟨?_, ?_, remove_pair, ?_⟩
  · intro f t i j hj hi hex
    exact ⟨i, hi, rfl, j, hj, hex⟩
  · rintro f t i hi ⟨j, hj, hex⟩
    exact ⟨j, hj, by omega, hex⟩
  · rw [remove_pair]
    simp

/-- Witness for Claim C8: on `pairFrame` the exceeding pair (1, 0) marks
the name of column 1, which is the label `spam`. -/
theorem corrFilter_includes_label_witness :
    markedName pairFrame (99 / 100) (pairFrame.columns.getD 1 "") :=
  corrFilter_includes_label.1 pairFrame (99 / 100) 1 0 Nat.zero_lt_one
    (by decide) exceeds_pair
